import Mathlib

/-!
Verification of the in-memory NoSQL provider (`InMemoryProvider.ts`).

The source is a transactional layer over plain JavaScript objects used as
string-keyed dictionaries.  We embed those dictionaries as association lists
`List (String × α)` with JavaScript object semantics: assignment to an existing
key updates it in place, assignment to a fresh key appends, `delete` removes
the entry, and iteration follows insertion order (which is what lodash's
`_.each` observes on string-keyed objects).

External collaborators (`NoSqlProviderUtils` key serialization, the full-text
tokenizer, lodash) are passed in as function parameters, matching the spec's
treatment of them as opaque pure collaborators.  Key serialization may throw in
the source, so the corresponding parameters return `Option String` with `none`
standing for a thrown error.
-/

namespace NoSql

/-- Error kinds surfaced by rejected promises in the source: the
`'InMemoryTransaction already closed'` rejection, a key-serialization throw
caught by `_.attempt`, and the `'Store not found'` throws in `getStore`. -/
inductive DbError where
  | transactionClosed
  | keySerializationFailed
  | notFound
deriving DecidableEq, Repr

/-- A JavaScript object used as a string-keyed dictionary (`_.Dictionary`). -/
abbrev Dict (α : Type) : Type := List (String × α)

/-- Property read `obj[key]`: the first entry with the key, if any. -/
def dictGet {α : Type} : Dict α → String → Option α
  | [], _ => none
  | (k, v) :: rest, key => if k = key then some v else dictGet rest key

/-- Property write `obj[key] = v`: update in place if present, else append. -/
def dictInsert {α : Type} : Dict α → String → α → Dict α
  | [], key, v => [(key, v)]
  | (k, w) :: rest, key, v =>
    if k = key then (k, v) :: rest else (k, w) :: dictInsert rest key v

/-- Property removal `delete obj[key]`. -/
def dictErase {α : Type} : Dict α → String → Dict α
  | [], _ => []
  | (k, w) :: rest, key =>
    if k = key then dictErase rest key else (k, w) :: dictErase rest key

/-- `_.keys(obj)`, in insertion order. -/
def dictKeys {α : Type} : Dict α → List String
  | [] => []
  | (k, _) :: rest => k :: dictKeys rest

/-- Mapping a function over every value of a dictionary. -/
def dictMapVal {α β : Type} (f : α → β) : Dict α → Dict β
  | [] => []
  | (k, v) :: rest => (k, f v) :: dictMapVal f rest

/-- Well-formedness of a JS object model: keys occur at most once.  Every
dictionary the provider actually builds satisfies this. -/
def dictWF {α : Type} (d : Dict α) : Prop :=
  (dictKeys d).Nodup

/-- JavaScript truthiness of a `number | undefined` argument: `undefined` and
`0` are falsy. -/
def jsTruthyNat : Option Nat → Bool
  | none => false
  | some n => n != 0

/-- Lexicographic comparison of character lists by code point. -/
def charListLt : List Char → List Char → Bool
  | _, [] => false
  | [], _ :: _ => true
  | c :: cs, d :: ds =>
    if c.toNat < d.toNat then true
    else if d.toNat < c.toNat then false
    else charListLt cs ds

/-- JavaScript string comparison `a < b`: lexicographic on the code units
(identical to code-point order for all strings without surrogate pairs,
which covers every key this provider ever compares in the claims). -/
def jsStrLt (a b : String) : Bool :=
  charListLt a.data b.data

@[simp] theorem dictGet_nil {α : Type} (key : String) :
    dictGet ([] : Dict α) key = none := rfl

theorem dictGet_dictInsert_self {α : Type} (d : Dict α) (key : String) (v : α) :
    dictGet (dictInsert d key v) key = some v := by
  induction d with
  | nil => simp [dictInsert, dictGet]
  | cons kv rest ih =>
    obtain ⟨k, w⟩ := kv
    by_cases hk : k = key <;> simp [dictInsert, dictGet, hk, ih]

theorem dictGet_dictInsert_ne {α : Type} (d : Dict α) {key k : String} (v : α)
    (h : key ≠ k) : dictGet (dictInsert d k v) key = dictGet d key := by
  have hne : k ≠ key := Ne.symm h
  induction d with
  | nil => simp [dictInsert, dictGet, hne]
  | cons kv rest ih =>
    obtain ⟨k0, w⟩ := kv
    by_cases hk : k0 = k
    · subst hk
      simp [dictInsert, dictGet, hne]
    · by_cases hkey : k0 = key <;> simp [dictInsert, dictGet, hk, hkey, hne, h, ih]

theorem dictGet_dictErase_self {α : Type} (d : Dict α) (key : String) :
    dictGet (dictErase d key) key = none := by
  induction d with
  | nil => simp [dictErase]
  | cons kv rest ih =>
    obtain ⟨k, w⟩ := kv
    by_cases hk : k = key <;> simp [dictErase, dictGet, hk, ih]

theorem dictGet_dictErase_ne {α : Type} (d : Dict α) {key k : String}
    (h : key ≠ k) : dictGet (dictErase d k) key = dictGet d key := by
  have hne : k ≠ key := Ne.symm h
  induction d with
  | nil => simp [dictErase]
  | cons kv rest ih =>
    obtain ⟨k0, w⟩ := kv
    by_cases hk : k0 = k
    · subst hk
      simp [dictErase, dictGet, hne, ih]
    · by_cases hkey : k0 = key <;> simp [dictErase, dictGet, hk, hkey, hne, h, ih]

theorem dictGet_eq_none_of_not_mem {α : Type} {d : Dict α} {key : String}
    (h : key ∉ dictKeys d) : dictGet d key = none := by
  induction d with
  | nil => rfl
  | cons kv rest ih =>
    obtain ⟨k, v⟩ := kv
    simp only [dictKeys, List.mem_cons, not_or] at h
    obtain ⟨h1, h2⟩ := h
    rw [dictGet, if_neg (fun he => h1 he.symm)]
    exact ih h2

theorem dictGet_dictMapVal {α β : Type} (f : α → β) (d : Dict α) (key : String) :
    dictGet (dictMapVal f d) key = (dictGet d key).map f := by
  induction d with
  | nil => rfl
  | cons kv rest ih =>
    obtain ⟨k, v⟩ := kv
    by_cases hk : k = key <;> simp [dictMapVal, dictGet, hk, ih]

theorem dictKeys_dictInsert_mem {α : Type} {d : Dict α} {key : String}
    (h : key ∈ dictKeys d) (v : α) : dictKeys (dictInsert d key v) = dictKeys d := by
  induction d with
  | nil => simp [dictKeys] at h
  | cons kv rest ih =>
    obtain ⟨k, w⟩ := kv
    by_cases hk : k = key
    · simp [dictInsert, hk, dictKeys]
    · simp only [dictKeys, List.mem_cons] at h
      rcases h with h | h
      · exact absurd h.symm hk
      · simp [dictInsert, hk, dictKeys, ih h]

theorem dictKeys_dictInsert_not_mem {α : Type} {d : Dict α} {key : String}
    (h : key ∉ dictKeys d) (v : α) :
    dictKeys (dictInsert d key v) = dictKeys d ++ [key] := by
  induction d with
  | nil => simp [dictInsert, dictKeys]
  | cons kv rest ih =>
    obtain ⟨k, w⟩ := kv
    simp only [dictKeys, List.mem_cons, not_or] at h
    obtain ⟨h1, h2⟩ := h
    have hne : k ≠ key := fun he => h1 he.symm
    simp [dictInsert, hne, dictKeys, ih h2]

theorem dictWF_dictInsert {α : Type} {d : Dict α} (h : dictWF d)
    (key : String) (v : α) : dictWF (dictInsert d key v) := by
  by_cases hm : key ∈ dictKeys d
  · rw [dictWF, dictKeys_dictInsert_mem hm]
    exact h
  · rw [dictWF, dictKeys_dictInsert_not_mem hm]
    simpa [List.nodup_append] using ⟨h, hm⟩

/-- `InMemoryStore`'s fields: `_pendingCommitDataChanges` (absent until the
copy-on-write fork; an inner `none` is a tombstone, i.e. the source's
`undefined` entry), `_committedStoreData` (the provider-owned `StoreData.data`)
and `_mergedData` (the view reads and writes go through). -/
structure InMemoryStore (Row : Type) where
  pendingCommitDataChanges : Option (Dict (Option Row))
  committedStoreData : Dict Row
  mergedData : Dict Row
deriving Repr, DecidableEq

namespace InMemoryStore

/-- `new InMemoryStore(trans, storeInfo)`: committed data is the provider's
`StoreData.data`, and `_mergedData` starts as that same data. -/
def freshStore {Row : Type} (storeData : Dict Row) : InMemoryStore Row :=
  ⟨none, storeData, storeData⟩

/-- `_checkDataClone`: on the first mutating access, initialize an empty
pending-changes dictionary and fork `_mergedData` into a copy of
`_committedStoreData` (`_.assign(\x7b\x7d, this._committedStoreData)`). -/
def checkDataClone {Row : Type} (s : InMemoryStore Row) : InMemoryStore Row :=
  match s.pendingCommitDataChanges with
  | none => ⟨some [], s.committedStoreData, s.committedStoreData⟩
  | some _ => s

/-- Replay of a pending-changes dictionary into a committed dictionary: the
`_.each` loop of `internal_commitPendingData` — `undefined` deletes the key,
any other value is assigned to it. -/
def applyChanges {Row : Type} : Dict Row → Dict (Option Row) → Dict Row
  | committed, [] => committed
  | committed, (key, val) :: rest =>
    applyChanges
      (match val with
       | none => dictErase committed key
       | some v => dictInsert committed key v) rest

/-- `internal_commitPendingData`: replay `_pendingCommitDataChanges` into
`_committedStoreData`, drop the pending dictionary and reset `_mergedData` to
the committed data. -/
def internal_commitPendingData {Row : Type} (s : InMemoryStore Row) :
    InMemoryStore Row :=
  let newCommitted := applyChanges s.committedStoreData
    (s.pendingCommitDataChanges.getD [])
  ⟨none, newCommitted, newCommitted⟩

/-- `internal_rollbackPendingData`: drop the pending dictionary and reset
`_mergedData` to `_committedStoreData`. -/
def internal_rollbackPendingData {Row : Type} (s : InMemoryStore Row) :
    InMemoryStore Row :=
  ⟨none, s.committedStoreData, s.committedStoreData⟩

/-- `get(key)`: reject when the transaction is closed, serialize the key
(`serializeKeyToString`, which may throw), then read `_mergedData`.  The
resolved value is the row, or the source's `undefined` (`none`) for a miss. -/
def get {K Row : Type} (s : InMemoryStore Row) (isOpen : Bool)
    (serializeKey : K → Option String) (key : K) :
    Except DbError (Option Row) :=
  if !isOpen then .error .transactionClosed
  else
    match serializeKey key with
    | none => .error .keySerializationFailed
    | some joinedKey => .ok (dictGet s.mergedData joinedKey)

/-- `getMultiple(keyOrKeys)`: serialize every key
(`formListOfSerializedKeys`), look each up in `_mergedData`, and run the
results through `_.compact`, which drops misses (`undefined`) *and* rows whose
value is JavaScript-falsy — `falsy` is that truthiness predicate on rows. -/
def getMultiple {K Row : Type} (s : InMemoryStore Row) (isOpen : Bool)
    (serializeKey : K → Option String) (falsy : Row → Bool) (keys : List K) :
    Except DbError (List Row) :=
  if !isOpen then .error .transactionClosed
  else
    match keys.mapM serializeKey with
    | none => .error .keySerializationFailed
    | some joinedKeys =>
      .ok ((joinedKeys.map (dictGet s.mergedData)).filterMap
        (fun o =>
          match o with
          | none => none
          | some row => if falsy row then none else some row))

/-- The `_.each` body of `put`: serialize each item's primary key
(`getSerializedKeyForKeypath`) and write the item into both
`_pendingCommitDataChanges` and `_mergedData`; a throw stops the loop but
keeps the mutations already made. -/
def putList {Row : Type} (rowKey : Row → Option String) :
    InMemoryStore Row → List Row → InMemoryStore Row × Option DbError
  | s, [] => (s, none)
  | s, item :: rest =>
    match rowKey item with
    | none => (s, some .keySerializationFailed)
    | some pk =>
      putList rowKey
        ⟨some (dictInsert (s.pendingCommitDataChanges.getD []) pk (some item)),
          s.committedStoreData,
          dictInsert s.mergedData pk item⟩ rest

/-- `put(itemOrItems)`: reject when closed, fork, then write every item.  The
pair carries the store state (mutations survive a mid-list throw) and the
rejection, if any. -/
def put {Row : Type} (s : InMemoryStore Row) (isOpen : Bool)
    (rowKey : Row → Option String) (items : List Row) :
    InMemoryStore Row × Option DbError :=
  if !isOpen then (s, some .transactionClosed)
  else putList rowKey (checkDataClone s) items

/-- `remove(keyOrKeys)`: reject when closed, fork, serialize all keys up
front (`formListOfSerializedKeys`), then tombstone each key in
`_pendingCommitDataChanges` and delete it from `_mergedData`. -/
def remove {K Row : Type} (s : InMemoryStore Row) (isOpen : Bool)
    (serializeKey : K → Option String) (keys : List K) :
    InMemoryStore Row × Option DbError :=
  if !isOpen then (s, some .transactionClosed)
  else
    let s1 := checkDataClone s
    match keys.mapM serializeKey with
    | none => (s1, some .keySerializationFailed)
    | some joinedKeys =>
      (joinedKeys.foldl
        (fun s2 key =>
          ⟨some (dictInsert (s2.pendingCommitDataChanges.getD []) key none),
            s2.committedStoreData,
            dictErase s2.mergedData key⟩) s1, none)

/-- `clearAllData()`: reject when closed, fork, tombstone every key currently
in `_mergedData`, then reset `_mergedData` to an empty object. -/
def clearAllData {Row : Type} (s : InMemoryStore Row) (isOpen : Bool) :
    InMemoryStore Row × Option DbError :=
  if !isOpen then (s, some .transactionClosed)
  else
    let s1 := checkDataClone s
    (⟨some ((dictKeys s1.mergedData).foldl
        (fun p key => dictInsert p key none)
        (s1.pendingCommitDataChanges.getD [])),
      s1.committedStoreData,
      []⟩, none)

end InMemoryStore

/-- One write operation issued against a store while its transaction is open;
used to quantify over "any sequence of `put`, `remove` and `clearAllData`
calls". -/
inductive WriteOp (K Row : Type) where
  | putOp (items : List Row)
  | removeOp (keys : List K)
  | clearAllOp

/-- Apply a write operation to a store through the real operations (the
transaction is open, so `isOpen = true`); the store state is kept even when
the operation rejects, as in the source. -/
def applyWriteOp {K Row : Type} (rowKey : Row → Option String)
    (serializeKey : K → Option String) (s : InMemoryStore Row) :
    WriteOp K Row → InMemoryStore Row
  | .putOp items => (s.put true rowKey items).1
  | .removeOp keys => (s.remove true serializeKey keys).1
  | .clearAllOp => (s.clearAllData true).1

/-- `InMemoryTransaction`'s state: `_openTimer` (the `setTimeout` id, `none`
once the auto-commit has fired and reset it to `undefined`; browser timer ids
are non-zero numbers), the `_stores` cache, and the token's granted store
names. -/
structure InMemoryTransaction (Row : Type) where
  openTimer : Option Nat
  stores : Dict (InMemoryStore Row)
  tokenStoreNames : List String

namespace InMemoryTransaction

/-- `internal_isOpen()`: `!!this._openTimer` — JavaScript truthiness of a
`number | undefined` field. -/
def internal_isOpen {Row : Type} (t : InMemoryTransaction Row) : Bool :=
  match t.openTimer with
  | none => false
  | some id => id != 0

/-- The auto-commit callback scheduled in the constructor: set `_openTimer`
to `undefined`, then `_commitTransaction()` runs
`internal_commitPendingData` on every store in `_stores`. -/
def fireAutoCommit {Row : Type} (t : InMemoryTransaction Row) :
    InMemoryTransaction Row :=
  { t with
    openTimer := none,
    stores := dictMapVal InMemoryStore.internal_commitPendingData t.stores }

/-- `abort()`: roll back every cached store, empty `_stores`, and
`clearTimeout(this._openTimer)`.  Note the source never resets the
`_openTimer` field itself, so it keeps its (truthy) timer id.  The rolled
back store objects are returned as well, since callers may still hold those
handles. -/
def abortTx {Row : Type} (t : InMemoryTransaction Row) :
    InMemoryTransaction Row × List (InMemoryStore Row) :=
  ({ t with stores := [] },
    t.stores.map (fun kv => InMemoryStore.internal_rollbackPendingData kv.2))

end InMemoryTransaction

/-- `InMemoryProvider`'s `_stores` registry: one `StoreData.data` dictionary
per declared store name (the schema part is carried by the serialization
parameters). -/
structure InMemoryProvider (Row : Type) where
  stores : Dict (Dict Row)

namespace InMemoryProvider

/-- `internal_getStore(name)`: plain registry lookup. -/
def internal_getStore {Row : Type} (p : InMemoryProvider Row) (name : String) :
    Option (Dict Row) :=
  dictGet p.stores name

end InMemoryProvider

namespace InMemoryTransaction

/-- `getStore(storeName)`: throw `NotFound` when the name is not in the
token's granted store list; return the cached handle if present; otherwise
look the store up on the provider (throwing `NotFound` when absent), wrap it,
cache it, and return it.  The returned transaction carries the updated
`_stores` cache. -/
def getStore {Row : Type} (p : InMemoryProvider Row)
    (t : InMemoryTransaction Row) (storeName : String) :
    Except DbError (InMemoryTransaction Row × InMemoryStore Row) :=
  if !(t.tokenStoreNames.contains storeName) then .error .notFound
  else
    match dictGet t.stores storeName with
    | some cached => .ok (t, cached)
    | none =>
      match p.internal_getStore storeName with
      | none => .error .notFound
      | some storeData =>
        let ims := InMemoryStore.freshStore storeData
        .ok ({ t with stores := dictInsert t.stores storeName ims }, ims)

end InMemoryTransaction

/-- The index configuration of an `InMemoryIndex`, together with the external
key-extraction collaborators for its key path: `primaryKey` is the
`openPrimaryKey` case (no index schema); `fullText` carries
`getFullTextIndexWordsForItem` and the per-word `serializeKeyToString`;
`multiEntry` carries `getValueForSingleKeypath` composed with `arrayify`
(`none` when the raw value is falsy) and the per-element
`serializeKeyToString`; `ordinary` carries `getSerializedKeyForKeypath`.
Serialization results of `none` model a throw. -/
inductive IndexDef (Row Val : Type) where
  | primaryKey
  | fullText (getWords : Row → List String) (serializeWord : String → Option String)
  | multiEntry (getVals : Row → Option (List Val)) (serializeVal : Val → Option String)
  | ordinary (getKey : Row → Option String)

namespace InMemoryIndex

/-- The serialized index keys one item contributes in `_calcChunkedData`'s
loop body: every tokenized word for a full-text index, every element of the
(arrayified) key-path value for a multi-entry index (none at all when that
value is falsy, since `keys` then stays `undefined`), and the single
serialized key-path value otherwise.  `none` models a serialization throw.
The `primaryKey` case never reaches this loop. -/
def itemIndexKeys {Row Val : Type} : IndexDef Row Val → Row → Option (List String)
  | .primaryKey, _ => some []
  | .fullText getWords serializeWord, item => (getWords item).mapM serializeWord
  | .multiEntry getVals serializeVal, item =>
    match getVals item with
    | none => some []
    | some vals => vals.mapM serializeVal
  | .ordinary getKey, item => (getKey item).map (fun key => [key])

/-- `if (!data[key]) data[key] = [item]; else data[key].push(item);` — note a
present (even empty) array is truthy, so only a missing key starts a new
bucket. -/
def appendToBucket {Row : Type} (data : Dict (List Row)) (key : String)
    (item : Row) : Dict (List Row) :=
  match dictGet data key with
  | none => dictInsert data key [item]
  | some bucket => dictInsert data key (bucket ++ [item])

/-- `_calcChunkedData()`: for the primary key, the merged data intact (typed
here as one singleton bucket per key); otherwise re-pivot the merged data,
appending each item to the bucket of every key it contributes, in merged
iteration order.  A `none` from key extraction aborts the whole computation,
like the throw the source traps around it. -/
def calcChunkedData {Row Val : Type} (idx : IndexDef Row Val)
    (mergedData : Dict Row) : Option (Dict (List Row)) :=
  match idx with
  | .primaryKey => some (dictMapVal (fun row => [row]) mergedData)
  | _ =>
    mergedData.foldlM
      (fun data kv =>
        (itemIndexKeys idx kv.2).map
          (fun keys => keys.foldl (fun d key => appendToBucket d key kv.2) data))
      []

/-- Insertion of a string into a sorted list, ascending. -/
def insertSorted (x : String) : List String → List String
  | [] => [x]
  | y :: ys => if jsStrLt y x then y :: insertSorted x ys else x :: y :: ys

/-- `Array.prototype.sort()` on a list of (distinct) serialized keys:
ascending lexicographic order on the strings. -/
def sortStrings (l : List String) : List String :=
  l.foldr insertSorted []

/-- `_returnResultsFromKeys(data, sortedKeys, reverse, limit, offset)`:
reverse the key list when `reverse` is truthy, `slice(offset)` when `offset`
is truthy, `slice(0, limit)` when `limit` is truthy, then map each key to its
bucket and `_.flatten` the result. -/
def returnResultsFromKeys {Row : Type} (data : Dict (List Row))
    (sortedKeys : List String) (reverse : Bool) (limit offset : Option Nat) :
    List Row :=
  let ks1 := if reverse then sortedKeys.reverse else sortedKeys
  let ks2 := if jsTruthyNat offset then ks1.drop (offset.getD 0) else ks1
  let ks3 := if jsTruthyNat limit then ks2.take (limit.getD 0) else ks2
  (ks3.map (fun key => (dictGet data key).getD [])).flatten

/-- `_getKeysForRange(data, keyLowRange, keyHighRange, lowRangeExclusive,
highRangeExclusive)` after both bounds serialized: filter the data's keys by
`(key > keyLow || (key === keyLow && !lowRangeExclusive)) && (key < keyHigh
|| (key === keyHigh && !highRangeExclusive))`, JavaScript string comparison
being lexicographic. -/
def getKeysForRange {Row : Type} (data : Dict (List Row))
    (keyLow keyHigh : String) (lowRangeExclusive highRangeExclusive : Bool) :
    List String :=
  (dictKeys data).filter
    (fun key =>
      (jsStrLt keyLow key || (key == keyLow && !lowRangeExclusive)) &&
      (jsStrLt key keyHigh || (key == keyHigh && !highRangeExclusive)))

/-- `getAll(reverse, limit, offset)`: reject when closed, chunk the data
(rejecting on a derivation throw), sort all keys ascending, and hand off to
`_returnResultsFromKeys`. -/
def getAll {Row Val : Type} (isOpen : Bool) (idx : IndexDef Row Val)
    (mergedData : Dict Row) (reverse : Bool) (limit offset : Option Nat) :
    Except DbError (List Row) :=
  if !isOpen then .error .transactionClosed
  else
    match calcChunkedData idx mergedData with
    | none => .error .keySerializationFailed
    | some data =>
      .ok (returnResultsFromKeys data (sortStrings (dictKeys data))
        reverse limit offset)

/-- `getRange(...)`: reject when closed; chunk the data and serialize both
bounds (`serializeRangeKey` is `serializeKeyToString` on the index key path,
a `none` modelling its throw), rejecting on failure; filter the keys to the
range, sort ascending, and hand off to `_returnResultsFromKeys`. -/
def getRange {K Row Val : Type} (isOpen : Bool) (idx : IndexDef Row Val)
    (mergedData : Dict Row) (serializeRangeKey : K → Option String)
    (keyLowRange keyHighRange : K)
    (lowRangeExclusive highRangeExclusive reverse : Bool)
    (limit offset : Option Nat) : Except DbError (List Row) :=
  if !isOpen then .error .transactionClosed
  else
    match calcChunkedData idx mergedData, serializeRangeKey keyLowRange,
        serializeRangeKey keyHighRange with
    | some data, some keyLow, some keyHigh =>
      .ok (returnResultsFromKeys data
        (sortStrings (getKeysForRange data keyLow keyHigh
          lowRangeExclusive highRangeExclusive))
        reverse limit offset)
    | _, _, _ => .error .keySerializationFailed

/-- `getOnly(key, ...) = getRange(key, key, false, false, ...)`. -/
def getOnly {K Row Val : Type} (isOpen : Bool) (idx : IndexDef Row Val)
    (mergedData : Dict Row) (serializeRangeKey : K → Option String) (key : K)
    (reverse : Bool) (limit offset : Option Nat) : Except DbError (List Row) :=
  getRange isOpen idx mergedData serializeRangeKey key key false false
    reverse limit offset

/-- `countAll()`: reject when closed, chunk the data, return the number of
its keys. -/
def countAll {Row Val : Type} (isOpen : Bool) (idx : IndexDef Row Val)
    (mergedData : Dict Row) : Except DbError Nat :=
  if !isOpen then .error .transactionClosed
  else
    match calcChunkedData idx mergedData with
    | none => .error .keySerializationFailed
    | some data => .ok (dictKeys data).length

/-- `countRange(...)`: reject when closed, chunk the data, serialize the
bounds, return the number of keys selected by `_getKeysForRange`. -/
def countRange {K Row Val : Type} (isOpen : Bool) (idx : IndexDef Row Val)
    (mergedData : Dict Row) (serializeRangeKey : K → Option String)
    (keyLowRange keyHighRange : K)
    (lowRangeExclusive highRangeExclusive : Bool) : Except DbError Nat :=
  if !isOpen then .error .transactionClosed
  else
    match calcChunkedData idx mergedData, serializeRangeKey keyLowRange,
        serializeRangeKey keyHighRange with
    | some data, some keyLow, some keyHigh =>
      .ok (getKeysForRange data keyLow keyHigh
        lowRangeExclusive highRangeExclusive).length
    | _, _, _ => .error .keySerializationFailed

/-- `countOnly(key) = countRange(key, key, false, false)`. -/
def countOnly {K Row Val : Type} (isOpen : Bool) (idx : IndexDef Row Val)
    (mergedData : Dict Row) (serializeRangeKey : K → Option String) (key : K) :
    Except DbError Nat :=
  countRange isOpen idx mergedData serializeRangeKey key key false false

end InMemoryIndex

/-- The spec's description of the range query, written from its words: select
exactly the derived-mapping keys within the bounds (lexicographic comparison
of serialized keys), sort them ascending, reverse if requested, drop the
first `offset` keys, truncate to `limit` keys when a limit is supplied, and
concatenate the selected keys' row buckets in that order. -/
def specGetRange {Row : Type} (data : Dict (List Row))
    (keyLow keyHigh : String) (lowExclusive highExclusive reverse : Bool)
    (limit offset : Option Nat) : List Row :=
  let selected := (dictKeys data).filter
    (fun k =>
      (jsStrLt keyLow k || (k == keyLow && !lowExclusive)) &&
      (jsStrLt k keyHigh || (k == keyHigh && !highExclusive)))
  let sortedAscending := InMemoryIndex.sortStrings selected
  let ordered := if reverse then sortedAscending.reverse else sortedAscending
  let afterOffset := ordered.drop (offset.getD 0)
  let afterLimit :=
    match limit with
    | none => afterOffset
    | some n => afterOffset.take n
  (afterLimit.map (fun k => (dictGet data k).getD [])).flatten

section StoreLemmas

variable {K Row : Type}

theorem checkDataClone_committed (s : InMemoryStore Row) :
    (InMemoryStore.checkDataClone s).committedStoreData = s.committedStoreData := by
  cases h : s.pendingCommitDataChanges <;>
    simp [InMemoryStore.checkDataClone, h]

theorem putList_committed (rowKey : Row → Option String) (items : List Row) :
    ∀ s : InMemoryStore Row,
      ((InMemoryStore.putList rowKey s items).1).committedStoreData =
        s.committedStoreData := by
  induction items with
  | nil => intro s; rfl
  | cons item rest ih =>
    intro s
    cases h : rowKey item <;> simp [InMemoryStore.putList, h, ih]

theorem foldl_committed_invariant {β : Type}
    (f : InMemoryStore Row → β → InMemoryStore Row)
    (hf : ∀ s b, (f s b).committedStoreData = s.committedStoreData) :
    ∀ (l : List β) (s : InMemoryStore Row),
      ((l.foldl f s)).committedStoreData = s.committedStoreData := by
  intro l
  induction l with
  | nil => intro s; rfl
  | cons b rest ih =>
    intro s
    rw [List.foldl_cons, ih, hf]

theorem applyWriteOp_committed (rowKey : Row → Option String)
    (serializeKey : K → Option String) (s : InMemoryStore Row)
    (op : WriteOp K Row) :
    (applyWriteOp rowKey serializeKey s op).committedStoreData =
      s.committedStoreData := by
  cases op with
  | putOp items =>
    simp [applyWriteOp, InMemoryStore.put, putList_committed,
      checkDataClone_committed]
  | removeOp keys =>
    simp only [applyWriteOp, InMemoryStore.remove]
    cases h : keys.mapM serializeKey with
    | none => simp [h, checkDataClone_committed]
    | some joinedKeys =>
      simp only [h, Bool.not_true, Bool.false_eq_true, if_false]
      rw [foldl_committed_invariant]
      · exact checkDataClone_committed s
      · intro s2 b
        rfl
  | clearAllOp =>
    simp [applyWriteOp, InMemoryStore.clearAllData, checkDataClone_committed]

theorem foldWriteOps_committed (rowKey : Row → Option String)
    (serializeKey : K → Option String) (ops : List (WriteOp K Row)) :
    ∀ s : InMemoryStore Row,
      ((ops.foldl (applyWriteOp rowKey serializeKey) s)).committedStoreData =
        s.committedStoreData := by
  induction ops with
  | nil => intro s; rfl
  | cons op rest ih =>
    intro s
    rw [List.foldl_cons, ih, applyWriteOp_committed]

end StoreLemmas

/-- C2: for every store a transaction touched, any sequence of `put`,
`remove` and `clearAllData` calls followed by `abort()` leaves the store's
committed row map exactly equal to its pre-transaction state — the rollback
restores the whole store view, with `merged = committed`; and every handle
rolled back by `abort()` has its pending changes discarded and
`merged = committed`. -/
theorem abort_discards_all_pending_changes {K Row : Type}
    (rowKey : Row → Option String) (serializeKey : K → Option String)
    (d : Dict Row) (ops : List (WriteOp K Row)) :
    InMemoryStore.internal_rollbackPendingData
        (ops.foldl (applyWriteOp rowKey serializeKey)
          (InMemoryStore.freshStore d)) =
      InMemoryStore.freshStore d ∧
    ∀ (t : InMemoryTransaction Row) (s2 : InMemoryStore Row),
      s2 ∈ (InMemoryTransaction.abortTx t).2 →
        s2.pendingCommitDataChanges = none ∧
        s2.mergedData = s2.committedStoreData := by
  constructor
  · have h := foldWriteOps_committed rowKey serializeKey ops
      (InMemoryStore.freshStore d)
    simp only [InMemoryStore.freshStore] at h
    simp [InMemoryStore.internal_rollbackPendingData, h,
      InMemoryStore.freshStore]
  · intro t s2 hmem
    simp only [InMemoryTransaction.abortTx, List.mem_map] at hmem
    obtain ⟨kv, _, rfl⟩ := hmem
    exact ⟨rfl, rfl⟩

/-- C8: writes inside one transaction never touch the shared committed map —
after any sequence of writes, the committed data equals the pre-fork state —
so a second transaction's store view, which wraps the committed data, reads
exactly what it would have read before the first transaction's uncommitted
writes. -/
theorem transaction_isolation {K K2 Row : Type}
    (rowKey : Row → Option String) (serializeKey : K → Option String)
    (serializeKey2 : K2 → Option String) (d : Dict Row)
    (ops : List (WriteOp K Row)) (key : K2) :
    ((ops.foldl (applyWriteOp rowKey serializeKey)
        (InMemoryStore.freshStore d))).committedStoreData = d ∧
    InMemoryStore.get
        (InMemoryStore.freshStore
          ((ops.foldl (applyWriteOp rowKey serializeKey)
            (InMemoryStore.freshStore d))).committedStoreData)
        true serializeKey2 key =
      InMemoryStore.get (InMemoryStore.freshStore d) true serializeKey2 key := by
  have h := foldWriteOps_committed rowKey serializeKey ops
    (InMemoryStore.freshStore d)
  constructor
  · simpa [InMemoryStore.freshStore] using h
  · rw [h]
    rfl

section CommitLemmas

variable {Row : Type}

theorem dictGet_applyChanges_not_mem (changes : Dict (Option Row))
    (key : String) :
    ∀ c : Dict Row, key ∉ dictKeys changes →
      dictGet (InMemoryStore.applyChanges c changes) key = dictGet c key := by
  induction changes with
  | nil => intro c _; rfl
  | cons kv rest ih =>
    intro c h
    obtain ⟨k, v⟩ := kv
    simp only [dictKeys, List.mem_cons, not_or] at h
    obtain ⟨h1, h2⟩ := h
    cases v with
    | none =>
      rw [show InMemoryStore.applyChanges c ((k, none) :: rest) =
          InMemoryStore.applyChanges (dictErase c k) rest from rfl, ih _ h2]
      exact dictGet_dictErase_ne c h1
    | some w =>
      rw [show InMemoryStore.applyChanges c ((k, some w) :: rest) =
          InMemoryStore.applyChanges (dictInsert c k w) rest from rfl, ih _ h2]
      exact dictGet_dictInsert_ne c w h1

theorem dictGet_applyChanges (changes : Dict (Option Row)) (key : String) :
    ∀ c : Dict Row, dictWF changes →
      dictGet (InMemoryStore.applyChanges c changes) key =
        (match dictGet changes key with
         | none => dictGet c key
         | some none => none
         | some (some v) => some v) := by
  induction changes with
  | nil => intro c _; rfl
  | cons kv rest ih =>
    intro c hwf
    obtain ⟨k, v⟩ := kv
    simp only [dictWF, dictKeys, List.nodup_cons] at hwf
    obtain ⟨hk_not, hrest⟩ := hwf
    by_cases hk : k = key
    · subst hk
      cases v with
      | none =>
        rw [show InMemoryStore.applyChanges c ((k, none) :: rest) =
            InMemoryStore.applyChanges (dictErase c k) rest from rfl,
          dictGet_applyChanges_not_mem rest k _ hk_not]
        simp [dictGet, dictGet_dictErase_self]
      | some w =>
        rw [show InMemoryStore.applyChanges c ((k, some w) :: rest) =
            InMemoryStore.applyChanges (dictInsert c k w) rest from rfl,
          dictGet_applyChanges_not_mem rest k _ hk_not]
        simp [dictGet, dictGet_dictInsert_self]
    · have hne : key ≠ k := fun he => hk he.symm
      cases v with
      | none =>
        rw [show InMemoryStore.applyChanges c ((k, none) :: rest) =
            InMemoryStore.applyChanges (dictErase c k) rest from rfl,
          ih _ hrest]
        cases hr : dictGet rest key with
        | none => simp [dictGet, hk, hr, dictGet_dictErase_ne c hne]
        | some o => cases o <;> simp [dictGet, hk, hr]
      | some w =>
        rw [show InMemoryStore.applyChanges c ((k, some w) :: rest) =
            InMemoryStore.applyChanges (dictInsert c k w) rest from rfl,
          ih _ hrest]
        cases hr : dictGet rest key with
        | none => simp [dictGet, hk, hr, dictGet_dictInsert_ne c w hne]
        | some o => cases o <;> simp [dictGet, hk, hr]

theorem checkDataClone_pending_wf (s : InMemoryStore Row)
    (h : dictWF (s.pendingCommitDataChanges.getD [])) :
    dictWF ((InMemoryStore.checkDataClone s).pendingCommitDataChanges.getD []) := by
  cases hp : s.pendingCommitDataChanges with
  | none => simp [InMemoryStore.checkDataClone, hp, dictWF, dictKeys]
  | some p =>
    simpa [InMemoryStore.checkDataClone, hp] using (by simpa [hp] using h)

end CommitLemmas

/-- C3: for a row `r` whose primary-key-path value serializes to `kk` and a
key `k` serializing to the same string, `put(r)` succeeds; `get(k)` within
the same open transaction then returns `r`; and a store view opened over the
committed data produced by this transaction's commit — i.e. any subsequently
opened transaction's view of the same store — also returns `r` for `get(k)`. -/
theorem put_get_round_trip {K Row : Type} (s : InMemoryStore Row)
    (rowKey : Row → Option String) (serializeKey : K → Option String)
    (r : Row) (k : K) (kk : String)
    (hrow : rowKey r = some kk) (hkey : serializeKey k = some kk)
    (hwf : dictWF (s.pendingCommitDataChanges.getD [])) :
    (InMemoryStore.put s true rowKey [r]).2 = none ∧
    InMemoryStore.get (InMemoryStore.put s true rowKey [r]).1 true
      serializeKey k = .ok (some r) ∧
    InMemoryStore.get
      (InMemoryStore.freshStore
        (InMemoryStore.internal_commitPendingData
          (InMemoryStore.put s true rowKey [r]).1).committedStoreData)
      true serializeKey k = .ok (some r) := by
  have hput : InMemoryStore.put s true rowKey [r] =
      (⟨some (dictInsert
          ((InMemoryStore.checkDataClone s).pendingCommitDataChanges.getD [])
          kk (some r)),
        (InMemoryStore.checkDataClone s).committedStoreData,
        dictInsert (InMemoryStore.checkDataClone s).mergedData kk r⟩, none) := by
    simp [InMemoryStore.put, InMemoryStore.putList, hrow]
  refine ⟨by rw [hput], ?_, ?_⟩
  · rw [hput]
    simp [InMemoryStore.get, hkey, dictGet_dictInsert_self]
  · rw [hput]
    have hwf1 : dictWF (dictInsert
        ((InMemoryStore.checkDataClone s).pendingCommitDataChanges.getD [])
        kk (some r)) :=
      dictWF_dictInsert (checkDataClone_pending_wf s hwf) kk (some r)
    simp only [InMemoryStore.get, InMemoryStore.freshStore,
      InMemoryStore.internal_commitPendingData, hkey, Option.getD_some,
      Bool.not_true, Bool.false_eq_true, if_false]
    rw [dictGet_applyChanges _ kk _ hwf1]
    simp [dictGet_dictInsert_self]

/-- Witness for the round-trip theorem at `Row = Int` with identity key
serialization. -/
theorem put_get_round_trip_witness :
    InMemoryStore.get
      (InMemoryStore.put
        (InMemoryStore.freshStore [("a", (1 : Int))]) true
        (fun r : Int => some (toString r)) [(7 : Int)]).1 true
      (fun x : String => some x) "7" = .ok (some 7) :=
  (put_get_round_trip (InMemoryStore.freshStore [("a", (1 : Int))])
    (fun r : Int => some (toString r)) (fun x : String => some x)
    7 "7" "7" rfl rfl (by simp [InMemoryStore.freshStore, dictWF, dictKeys])).2.1

/-- C4: committing replays every pending-changes entry into the committed
map — a value entry overwrites or inserts its key, a tombstone entry deletes
it, and untouched keys keep their committed value — then clears pending
changes and resets `merged = committed`; the auto-commit applies this to
every store the transaction opened; and in particular `remove(k)` followed by
commit leaves `k` absent from the committed map, so a subsequently opened
transaction's view of the store reads nothing for it. -/
theorem commit_replays_pending_changes {K Row : Type} (s : InMemoryStore Row)
    (serializeKey : K → Option String) (k : K) (kk : String)
    (hwf : dictWF (s.pendingCommitDataChanges.getD []))
    (hser : serializeKey k = some kk) :
    (∀ key, dictGet
        (InMemoryStore.internal_commitPendingData s).committedStoreData key =
      (match dictGet (s.pendingCommitDataChanges.getD []) key with
       | none => dictGet s.committedStoreData key
       | some none => none
       | some (some v) => some v)) ∧
    (InMemoryStore.internal_commitPendingData s).pendingCommitDataChanges =
      none ∧
    (InMemoryStore.internal_commitPendingData s).mergedData =
      (InMemoryStore.internal_commitPendingData s).committedStoreData ∧
    (∀ (t : InMemoryTransaction Row) (name : String) (st : InMemoryStore Row),
      dictGet t.stores name = some st →
        dictGet (InMemoryTransaction.fireAutoCommit t).stores name =
          some (InMemoryStore.internal_commitPendingData st)) ∧
    ((InMemoryStore.remove s true serializeKey [k]).2 = none ∧
      dictGet (InMemoryStore.internal_commitPendingData
        (InMemoryStore.remove s true serializeKey [k]).1).committedStoreData
        kk = none ∧
      InMemoryStore.get
        (InMemoryStore.freshStore
          (InMemoryStore.internal_commitPendingData
            (InMemoryStore.remove s true serializeKey [k]).1).committedStoreData)
        true serializeKey k = .ok none) := by
  refine ⟨?_, rfl, rfl, ?_, ?_⟩
  · intro key
    simp only [InMemoryStore.internal_commitPendingData]
    exact dictGet_applyChanges _ key _ hwf
  · intro t name st hst
    simp only [InMemoryTransaction.fireAutoCommit]
    rw [dictGet_dictMapVal, hst]
    rfl
  · have hrem : InMemoryStore.remove s true serializeKey [k] =
        (⟨some (dictInsert
            ((InMemoryStore.checkDataClone s).pendingCommitDataChanges.getD [])
            kk none),
          (InMemoryStore.checkDataClone s).committedStoreData,
          dictErase (InMemoryStore.checkDataClone s).mergedData kk⟩, none) := by
      simp [InMemoryStore.remove, List.mapM, List.mapM.loop, hser]
    have hwf1 : dictWF (dictInsert
        ((InMemoryStore.checkDataClone s).pendingCommitDataChanges.getD [])
        kk (none : Option Row)) :=
      dictWF_dictInsert (checkDataClone_pending_wf s hwf) kk none
    refine ⟨by rw [hrem], ?_, ?_⟩
    · rw [hrem]
      simp only [InMemoryStore.internal_commitPendingData, Option.getD_some]
      rw [dictGet_applyChanges _ kk _ hwf1]
      simp [dictGet_dictInsert_self]
    · rw [hrem]
      simp only [InMemoryStore.get, InMemoryStore.freshStore,
        InMemoryStore.internal_commitPendingData, hser, Option.getD_some,
        Bool.not_true, Bool.false_eq_true, if_false]
      rw [dictGet_applyChanges _ kk _ hwf1]
      simp [dictGet_dictInsert_self]

/-- Witness for the commit-replay theorem: removing key `"b"` from a store
whose committed data holds `"b"` and committing leaves `"b"` absent. -/
theorem commit_replays_pending_changes_witness :
    dictGet (InMemoryStore.internal_commitPendingData
      (InMemoryStore.remove
        (InMemoryStore.freshStore [("b", (2 : Int))]) true
        (fun x : String => some x) ["b"]).1).committedStoreData "b" = none :=
  (commit_replays_pending_changes
    (InMemoryStore.freshStore [("b", (2 : Int))]) (fun x : String => some x)
    "b" "b" (by simp [InMemoryStore.freshStore, dictWF, dictKeys])
    rfl).2.2.2.2.2.1

/-- C9: a stored row whose value is JavaScript-falsy is omitted by
`getMultiple` — indistinguishable from a missing key — even though `get`
with the same key returns it, and every row `getMultiple` does return is
truthy. -/
theorem getMultiple_omits_falsy_rows {K Row : Type} (s : InMemoryStore Row)
    (serializeKey : K → Option String) (falsy : Row → Bool)
    (r : Row) (k : K) (kk : String)
    (hser : serializeKey k = some kk)
    (hrow : dictGet s.mergedData kk = some r)
    (hfalsy : falsy r = true) :
    InMemoryStore.getMultiple s true serializeKey falsy [k] = .ok [] ∧
    InMemoryStore.get s true serializeKey k = .ok (some r) ∧
    (∀ (keys : List K) (res : List Row),
      InMemoryStore.getMultiple s true serializeKey falsy keys = .ok res →
        ∀ r2 ∈ res, falsy r2 = false) := by
  refine ⟨?_, ?_, ?_⟩
  · simp [InMemoryStore.getMultiple, List.mapM, List.mapM.loop, hser, hrow,
      hfalsy]
  · simp [InMemoryStore.get, hser, hrow]
  · intro keys res h r2 hr2
    simp only [InMemoryStore.getMultiple, Bool.not_true, Bool.false_eq_true,
      if_false] at h
    cases hm : keys.mapM serializeKey with
    | none => rw [hm] at h; cases h
    | some jks =>
      rw [hm] at h
      simp only [Except.ok.injEq] at h
      rw [← h] at hr2
      obtain ⟨o, _, ho⟩ := List.mem_filterMap.mp hr2
      cases o with
      | none => cases ho
      | some row =>
        by_cases hf : falsy row = true
        · simp [hf] at ho
        · simp only [Bool.not_eq_true] at hf
          simp only [hf, Bool.false_eq_true, if_false, Option.some.injEq] at ho
          rw [← ho]
          exact hf

/-- Witness for the falsy-row theorem at `Row = Int` with `0` as the falsy
row value. -/
theorem getMultiple_omits_falsy_rows_witness :
    InMemoryStore.getMultiple
      (InMemoryStore.freshStore [("k", (0 : Int))]) true
      (fun x : String => some x) (fun r : Int => r == 0) ["k"] = .ok [] ∧
    InMemoryStore.get (InMemoryStore.freshStore [("k", (0 : Int))]) true
      (fun x : String => some x) "k" = .ok (some 0) :=
  ⟨(getMultiple_omits_falsy_rows (InMemoryStore.freshStore [("k", (0 : Int))])
      (fun x : String => some x) (fun r : Int => r == 0) 0 "k" "k"
      rfl (by simp [InMemoryStore.freshStore, dictGet]) (by decide)).1,
    (getMultiple_omits_falsy_rows (InMemoryStore.freshStore [("k", (0 : Int))])
      (fun x : String => some x) (fun r : Int => r == 0) 0 "k" "k"
      rfl (by simp [InMemoryStore.freshStore, dictGet]) (by decide)).2.1⟩

theorem returnResultsFromKeys_zero_limit {Row : Type} (data : Dict (List Row))
    (sortedKeys : List String) (reverse : Bool) (offset : Option Nat) :
    InMemoryIndex.returnResultsFromKeys data sortedKeys reverse
        (some 0) offset =
      InMemoryIndex.returnResultsFromKeys data sortedKeys reverse
        none offset := rfl

theorem returnResultsFromKeys_zero_offset {Row : Type} (data : Dict (List Row))
    (sortedKeys : List String) (reverse : Bool) (limit : Option Nat) :
    InMemoryIndex.returnResultsFromKeys data sortedKeys reverse
        limit (some 0) =
      InMemoryIndex.returnResultsFromKeys data sortedKeys reverse
        limit none := rfl

/-- C10: passing `limit = 0` or `offset = 0` to an index query behaves
exactly like omitting that argument — each independently, with the other
argument arbitrary — because `_returnResultsFromKeys` applies them only when
truthy: `getAll` and `getRange` with `limit = 0` return the same (untruncated)
result as with `limit` omitted under any `offset`, and with `offset = 0` drop
nothing under any `limit`. -/
theorem zero_limit_offset_treated_as_omitted {K Row Val : Type}
    (isOpen : Bool) (idx : IndexDef Row Val) (mergedData : Dict Row)
    (serializeRangeKey : K → Option String) (lo hi : K)
    (lowEx highEx reverse : Bool) (limit offset : Option Nat) :
    (InMemoryIndex.getAll isOpen idx mergedData reverse (some 0) offset =
      InMemoryIndex.getAll isOpen idx mergedData reverse none offset) ∧
    (InMemoryIndex.getAll isOpen idx mergedData reverse limit (some 0) =
      InMemoryIndex.getAll isOpen idx mergedData reverse limit none) ∧
    (InMemoryIndex.getRange isOpen idx mergedData serializeRangeKey lo hi
        lowEx highEx reverse (some 0) offset =
      InMemoryIndex.getRange isOpen idx mergedData serializeRangeKey lo hi
        lowEx highEx reverse none offset) ∧
    (InMemoryIndex.getRange isOpen idx mergedData serializeRangeKey lo hi
        lowEx highEx reverse limit (some 0) =
      InMemoryIndex.getRange isOpen idx mergedData serializeRangeKey lo hi
        lowEx highEx reverse limit none) := by
  refine ⟨?_, ?_, ?_, ?_⟩
  · cases isOpen with
    | false => rfl
    | true =>
      cases h : InMemoryIndex.calcChunkedData idx mergedData with
      | none => simp [InMemoryIndex.getAll, h]
      | some data =>
        simp [InMemoryIndex.getAll, h, returnResultsFromKeys_zero_limit]
  · cases isOpen with
    | false => rfl
    | true =>
      cases h : InMemoryIndex.calcChunkedData idx mergedData with
      | none => simp [InMemoryIndex.getAll, h]
      | some data =>
        simp [InMemoryIndex.getAll, h, returnResultsFromKeys_zero_offset]
  · cases isOpen with
    | false => rfl
    | true =>
      cases h : InMemoryIndex.calcChunkedData idx mergedData with
      | none => simp [InMemoryIndex.getRange, h]
      | some data =>
        cases h2 : serializeRangeKey lo with
        | none => simp [InMemoryIndex.getRange, h, h2]
        | some keyLow =>
          cases h3 : serializeRangeKey hi with
          | none => simp [InMemoryIndex.getRange, h, h2, h3]
          | some keyHigh =>
            simp [InMemoryIndex.getRange, h, h2, h3,
              returnResultsFromKeys_zero_limit]
  · cases isOpen with
    | false => rfl
    | true =>
      cases h : InMemoryIndex.calcChunkedData idx mergedData with
      | none => simp [InMemoryIndex.getRange, h]
      | some data =>
        cases h2 : serializeRangeKey lo with
        | none => simp [InMemoryIndex.getRange, h, h2]
        | some keyLow =>
          cases h3 : serializeRangeKey hi with
          | none => simp [InMemoryIndex.getRange, h, h2, h3]
          | some keyHigh =>
            simp [InMemoryIndex.getRange, h, h2, h3,
              returnResultsFromKeys_zero_offset]

theorem returnResultsFromKeys_eq_spec_pipeline {Row : Type}
    (data : Dict (List Row)) (keyLow keyHigh : String)
    (lowEx highEx reverse : Bool) (limit offset : Option Nat)
    (hlimit : limit ≠ some 0) :
    InMemoryIndex.returnResultsFromKeys data
        (InMemoryIndex.sortStrings
          (InMemoryIndex.getKeysForRange data keyLow keyHigh lowEx highEx))
        reverse limit offset =
      specGetRange data keyLow keyHigh lowEx highEx reverse limit offset := by
  simp only [InMemoryIndex.returnResultsFromKeys, InMemoryIndex.getKeysForRange,
    specGetRange]
  cases offset with
  | none =>
    cases limit with
    | none => simp [jsTruthyNat]
    | some n =>
      cases n with
      | zero => exact absurd rfl hlimit
      | succ m => simp [jsTruthyNat]
  | some o =>
    cases limit with
    | none => cases o <;> simp [jsTruthyNat]
    | some n =>
      cases n with
      | zero => exact absurd rfl hlimit
      | succ m => cases o <;> simp [jsTruthyNat]

/-- C5: `getRange` selects exactly the derived-mapping keys inside the
(in/ex)clusive bounds under lexicographic comparison of the serialized keys,
sorts them ascending, reverses when requested, applies `offset` then `limit`
in index-key units, and returns the concatenation of the selected keys' row
buckets in that order — stated as equality with `specGetRange`, the pipeline
written from the spec's words.  The one JavaScript-truthiness corner, a
supplied `limit` of `0`, is excluded here (it means "no limit" in the code;
see the zero-argument theorem). -/
theorem getRange_matches_spec {K Row Val : Type} (idx : IndexDef Row Val)
    (mergedData : Dict Row) (data : Dict (List Row))
    (serializeRangeKey : K → Option String) (lo hi : K)
    (keyLow keyHigh : String) (lowEx highEx reverse : Bool)
    (limit offset : Option Nat)
    (hcalc : InMemoryIndex.calcChunkedData idx mergedData = some data)
    (hlo : serializeRangeKey lo = some keyLow)
    (hhi : serializeRangeKey hi = some keyHigh)
    (hlimit : limit ≠ some 0) :
    InMemoryIndex.getRange true idx mergedData serializeRangeKey lo hi
        lowEx highEx reverse limit offset =
      .ok (specGetRange data keyLow keyHigh lowEx highEx reverse
        limit offset) := by
  simp only [InMemoryIndex.getRange, Bool.not_true, Bool.false_eq_true,
    if_false, hcalc, hlo, hhi]
  rw [returnResultsFromKeys_eq_spec_pipeline data keyLow keyHigh lowEx highEx
    reverse limit offset hlimit]

/-- Witness for the range-pipeline theorem on a three-key primary index:
`getRange("a","c",false,true)` computes the spec pipeline's result, which is
the rows for `"a","b"` in ascending order. -/
theorem getRange_matches_spec_witness :
    InMemoryIndex.getRange true (.primaryKey : IndexDef Int String)
        [("a", (1 : Int)), ("b", 2), ("c", 3)] (fun x : String => some x)
        "a" "c" false true false none none =
      .ok (specGetRange [("a", [(1 : Int)]), ("b", [2]), ("c", [3])]
        "a" "c" false true false none none) ∧
    specGetRange [("a", [(1 : Int)]), ("b", [2]), ("c", [3])]
        "a" "c" false true false none none = [1, 2] := by
  constructor
  · exact getRange_matches_spec (.primaryKey : IndexDef Int String)
      [("a", (1 : Int)), ("b", 2), ("c", 3)]
      [("a", [(1 : Int)]), ("b", [2]), ("c", [3])]
      (fun x : String => some x) "a" "c" "a" "c" false true false none none
      rfl rfl rfl (by simp)
  · rfl

/-- C6: the count queries return the number of distinct index keys selected,
not the number of rows — `countAll` counts the derived mapping's keys and
`countRange` counts the keys selected by the range filter — and for a
multi-entry index a single row whose indexed field yields the two serialized
keys `sx` and `sy` appears under both keys in `getAll` (the row occurs twice)
while `countAll` returns `2` even though only one row exists. -/
theorem count_is_key_count_multi_entry_fan_out {Row Val : Type}
    (getVals : Row → Option (List Val)) (serializeVal : Val → Option String)
    (r : Row) (pk : String) (vx vy : Val) (sx sy : String)
    (hg : getVals r = some [vx, vy]) (hx : serializeVal vx = some sx)
    (hy : serializeVal vy = some sy) (hne : sx ≠ sy) :
    (∀ (idx : IndexDef Row Val) (mergedData : Dict Row)
       (data : Dict (List Row)),
      InMemoryIndex.calcChunkedData idx mergedData = some data →
        InMemoryIndex.countAll true idx mergedData =
          .ok (dictKeys data).length) ∧
    (∀ (K : Type) (idx : IndexDef Row Val) (mergedData : Dict Row)
       (data : Dict (List Row)) (ser2 : K → Option String) (lo hi : K)
       (keyLow keyHigh : String) (lowEx highEx : Bool),
      InMemoryIndex.calcChunkedData idx mergedData = some data →
      ser2 lo = some keyLow → ser2 hi = some keyHigh →
        InMemoryIndex.countRange true idx mergedData ser2 lo hi lowEx highEx =
          .ok (InMemoryIndex.getKeysForRange data keyLow keyHigh
            lowEx highEx).length) ∧
    InMemoryIndex.countAll true (.multiEntry getVals serializeVal)
      [(pk, r)] = .ok 2 ∧
    InMemoryIndex.getAll true (.multiEntry getVals serializeVal)
      [(pk, r)] false none none = .ok [r, r] := by
  have hcalc2 : InMemoryIndex.calcChunkedData
      (.multiEntry getVals serializeVal) [(pk, r)] =
      some [(sx, [r]), (sy, [r])] := by
    simp [InMemoryIndex.calcChunkedData, List.foldlM,
      InMemoryIndex.itemIndexKeys, hg, List.mapM, List.mapM.loop, hx, hy,
      InMemoryIndex.appendToBucket, dictGet, dictInsert, hne]
  refine ⟨?_, ?_, ?_, ?_⟩
  · intro idx mergedData data h
    simp [InMemoryIndex.countAll, h]
  · intro K idx mergedData data ser2 lo hi keyLow keyHigh lowEx highEx h h1 h2
    simp [InMemoryIndex.countRange, h, h1, h2]
  · simp [InMemoryIndex.countAll, hcalc2, dictKeys]
  · by_cases hlt : jsStrLt sy sx = true
    · simp [InMemoryIndex.getAll, hcalc2, InMemoryIndex.sortStrings,
        InMemoryIndex.insertSorted, hlt, dictKeys,
        InMemoryIndex.returnResultsFromKeys, jsTruthyNat, dictGet, hne,
        Ne.symm hne]
    · simp only [Bool.not_eq_true] at hlt
      simp [InMemoryIndex.getAll, hcalc2, InMemoryIndex.sortStrings,
        InMemoryIndex.insertSorted, hlt, dictKeys,
        InMemoryIndex.returnResultsFromKeys, jsTruthyNat, dictGet, hne,
        Ne.symm hne]

/-- Witness for the multi-entry fan-out theorem: one row with field
`["x", "y"]`, `countAll` is `2` and `getAll` returns the row twice. -/
theorem count_is_key_count_multi_entry_fan_out_witness :
    InMemoryIndex.countAll true
      (.multiEntry (fun _ : Nat => some ["x", "y"])
        (fun v : String => some v)) [("p", (7 : Nat))] = .ok 2 ∧
    InMemoryIndex.getAll true
      (.multiEntry (fun _ : Nat => some ["x", "y"])
        (fun v : String => some v)) [("p", (7 : Nat))] false none none =
      .ok [7, 7] :=
  ⟨(count_is_key_count_multi_entry_fan_out
      (fun _ : Nat => some ["x", "y"]) (fun v : String => some v)
      7 "p" "x" "y" "x" "y" rfl rfl rfl (by decide)).2.2.1,
    (count_is_key_count_multi_entry_fan_out
      (fun _ : Nat => some ["x", "y"]) (fun v : String => some v)
      7 "p" "x" "y" "x" "y" rfl rfl rfl (by decide)).2.2.2⟩

/-- C7: `getStore(name)` fails with `NotFound` exactly when `name` is not in
the transaction token's granted store names or the provider has no store of
that name (given the invariant that every cached handle came from the
provider); otherwise it returns a handle, and an immediately repeated call
with the same name returns the same handle and leaves the cache unchanged. -/
theorem getStore_not_found_and_caching {Row : Type} (p : InMemoryProvider Row)
    (t : InMemoryTransaction Row) (name : String)
    (hinv : ∀ (n : String) (st : InMemoryStore Row),
      dictGet t.stores n = some st → (p.internal_getStore n).isSome) :
    (InMemoryTransaction.getStore p t name = .error .notFound ↔
      (t.tokenStoreNames.contains name = false ∨
        p.internal_getStore name = none)) ∧
    (∀ (t2 : InMemoryTransaction Row) (s2 : InMemoryStore Row),
      InMemoryTransaction.getStore p t name = .ok (t2, s2) →
        InMemoryTransaction.getStore p t2 name = .ok (t2, s2)) := by
  cases hc : t.tokenStoreNames.contains name with
  | false =>
    have hres : InMemoryTransaction.getStore p t name = .error .notFound := by
      dsimp only [InMemoryTransaction.getStore]
      rw [hc]
      rfl
    constructor
    · rw [hres]
      exact ⟨fun _ => Or.inl rfl, fun _ => rfl⟩
    · intro t2 s2 h
      rw [hres] at h
      exact Except.noConfusion h
  | true =>
    cases hcache : dictGet t.stores name with
    | some cached =>
      have hsome := hinv name cached hcache
      have hres : InMemoryTransaction.getStore p t name = .ok (t, cached) := by
        dsimp only [InMemoryTransaction.getStore]
        rw [hc, hcache]
        rfl
      constructor
      · rw [hres]
        constructor
        · intro h
          exact Except.noConfusion h
        · rintro (h | h)
          · exact Bool.noConfusion h
          · rw [h] at hsome
            simp at hsome
      · intro t2 s2 h
        rw [hres] at h
        simp only [Except.ok.injEq, Prod.mk.injEq] at h
        obtain ⟨rfl, rfl⟩ := h
        exact hres
    | none =>
      cases hprov : p.internal_getStore name with
      | none =>
        have hres : InMemoryTransaction.getStore p t name =
            .error .notFound := by
          dsimp only [InMemoryTransaction.getStore]
          rw [hc, hcache, hprov]
          rfl
        constructor
        · rw [hres]
          exact ⟨fun _ => Or.inr rfl, fun _ => rfl⟩
        · intro t2 s2 h
          rw [hres] at h
          exact Except.noConfusion h
      | some storeData =>
        have hres : InMemoryTransaction.getStore p t name =
            .ok
              ({ t with
                  stores := dictInsert t.stores name
                    (InMemoryStore.freshStore storeData) },
                InMemoryStore.freshStore storeData) := by
          dsimp only [InMemoryTransaction.getStore]
          rw [hc, hcache, hprov]
          rfl
        constructor
        · rw [hres]
          constructor
          · intro h
            exact Except.noConfusion h
          · rintro (h | h)
            · exact Bool.noConfusion h
            · exact Option.noConfusion h
        · intro t2 s2 h
          rw [hres] at h
          simp only [Except.ok.injEq, Prod.mk.injEq] at h
          obtain ⟨rfl, rfl⟩ := h
          dsimp only [InMemoryTransaction.getStore]
          rw [hc, dictGet_dictInsert_self]
          rfl

/-- Witness for the `getStore` theorem on a one-store provider: asking for an
undeclared name fails with `NotFound`, and asking for the granted name twice
returns the same handle. -/
theorem getStore_not_found_and_caching_witness :
    (InMemoryTransaction.getStore
        (⟨[("s", [("k", (1 : Int))])]⟩ : InMemoryProvider Int)
        ⟨some 1, [], ["s"]⟩ "nope" = .error .notFound ↔
      (((["s"] : List String).contains "nope") = false ∨
        InMemoryProvider.internal_getStore
          (⟨[("s", [("k", (1 : Int))])]⟩ : InMemoryProvider Int) "nope" =
          none)) :=
  (getStore_not_found_and_caching
    (⟨[("s", [("k", (1 : Int))])]⟩ : InMemoryProvider Int)
    ⟨some 1, [], ["s"]⟩ "nope"
    (by intro n st h; simp [dictGet] at h)).1

/-- A transaction with a live auto-commit timer (id `1`) and one cached store
handle over committed data `\x7b "k": 5 \x7d`, used to evaluate the
closed-transaction check after `abort()` and after the auto-commit. -/
def abortDemoTransaction : InMemoryTransaction Int :=
  ⟨some 1, [("s", InMemoryStore.freshStore [("k", (5 : Int))])], ["s"]⟩

/-- C1: after the auto-commit fires, `internal_isOpen()` is `false` and store
operations are rejected with the closed-transaction error; but after
`abort()`, `clearTimeout` leaves the `_openTimer` field holding its (truthy)
timer id, so `internal_isOpen()` still reports `true` and a `get` issued
through the aborted transaction resolves with a row instead of being
rejected — contradicting the claim that operations after `abort()` fail with
`TransactionClosed`. -/
theorem after_abort_operations_not_rejected :
    InMemoryTransaction.internal_isOpen
      (InMemoryTransaction.abortTx abortDemoTransaction).1 = true ∧
    InMemoryStore.get
      (InMemoryStore.internal_rollbackPendingData
        (InMemoryStore.freshStore [("k", (5 : Int))]))
      (InMemoryTransaction.internal_isOpen
        (InMemoryTransaction.abortTx abortDemoTransaction).1)
      (fun x : String => some x) "k" = .ok (some 5) ∧
    InMemoryTransaction.internal_isOpen
      (InMemoryTransaction.fireAutoCommit abortDemoTransaction) = false ∧
    InMemoryStore.get (InMemoryStore.freshStore [("k", (5 : Int))])
      (InMemoryTransaction.internal_isOpen
        (InMemoryTransaction.fireAutoCommit abortDemoTransaction))
      (fun x : String => some x) "k" = .error .transactionClosed := by
  refine ⟨rfl, ?_, rfl, rfl⟩
  simp [InMemoryStore.get, InMemoryStore.internal_rollbackPendingData,
    InMemoryStore.freshStore, InMemoryTransaction.internal_isOpen,
    InMemoryTransaction.abortTx, abortDemoTransaction, dictGet]

end NoSql
